import Mathlib

/-!
Shallow embedding of the cppstringx generic string-algorithm library
(`include/cppstringx/cppstringx.hpp`).

Strings of any supported shape (null-terminated buffer, range view, growable
string object) are modelled as `List α` of code units.  A terminated iterator
over a string corresponds to an absolute `Nat` index into the list (its
`is_end_position` test is `index = length`), and the suffix starting at that
index is what the iterator can still read.  Entry points that throw
`std::invalid_argument` in C++ are modelled with `Except String`.
-/

namespace cppstringx

variable {α : Type}

namespace utility

/-- `utility::equals_comparer`: compares two character values with `==`,
specialised here to `Char` code units. -/
def equals_comparer (a b : Char) : Bool := a == b

/-- `utility::is_space` with the default locale: the six standard whitespace
characters recognised by `std::isspace` in the default "C" locale. -/
def is_space (c : Char) : Bool :=
  c == ' ' || c == '\t' || c == '\n' || c == Char.ofNat 11 || c == Char.ofNat 12 || c == '\r'

end utility

namespace implementation

/-- `implementation::prefix_matches`: advance the text and prefix iterators in
lockstep while the comparer holds and neither is at its end; the prefix matches
iff the prefix iterator reached its end (a mismatch with pattern characters
remaining, or running out of text first, fails). -/
def prefix_matches (cmp : α → α → Bool) : List α → List α → Bool
| _, [] => true
| [], _ :: _ => false
| a :: t, b :: p => cmp a b && prefix_matches cmp t p

/-- `implementation::full_match`: same lockstep advance; succeeds iff both
iterators reach their end simultaneously. -/
def full_match (cmp : α → α → Bool) : List α → List α → Bool
| [], [] => true
| [], _ :: _ => false
| _ :: _, [] => false
| a :: t, b :: p => cmp a b && full_match cmp t p

/-- Number of lockstep steps performed by the inner compare loop of
`implementation::find_forward_optimized` (it stops at the first mismatch or
when either sequence is exhausted). -/
def lockstepLen (cmp : α → α → Bool) : List α → List α → Nat
| a :: t, b :: p => if cmp a b then lockstepLen cmp t p + 1 else 0
| _, _ => 0

/-- Outer loop of `implementation::find_forward_optimized`, running over the
suffix `t` of the text that starts at absolute position `i` (`n` is the text
length).  At each position the inner compare loop runs; the outer loop breaks
when the contained string was read completely (success) or the text compare
iterator hit the end (failure).  Returns the absolute `(begin, end)` positions
of the resulting range; on failure both positions are the text end `n`. -/
def ffo_go (cmp : α → α → Bool) (pat : List α) (n : Nat) : List α → Nat → Nat × Nat
| [], _ => (n, n)
| a :: ts, i =>
  if lockstepLen cmp (a :: ts) pat = pat.length then (i, i + lockstepLen cmp (a :: ts) pat)
  else if lockstepLen cmp (a :: ts) pat = (a :: ts).length then (n, n)
  else ffo_go cmp pat n ts (i + 1)

/-- `implementation::find_forward_optimized` invoked on a cursor at the start
of `text`. -/
def find_forward_optimized (cmp : α → α → Bool) (text pat : List α) : Nat × Nat :=
ffo_go cmp pat text.length text 0

/-- `implementation::find_forward_optimized` invoked on a cursor of `text`
standing at absolute position `pos`, as done by the split iterator. -/
def find_from (cmp : α → α → Bool) (text pat : List α) (pos : Nat) : Nat × Nat :=
ffo_go cmp pat text.length (text.drop pos) pos

/-- `implementation::replace_all_copy_forward`: scan the text; wherever the
inner compare loop reads `pat` completely, append `rep` to the result and jump
the text iterator past the matched region, otherwise append the current
character and advance by one.  For an empty `pat` the C++ loop never
terminates; every library entry point rejects an empty pattern first, and for
a non-empty `pat` the recursion below agrees with the source because
`(a :: ts).drop pat.length = ts.drop (pat.length - 1)`. -/
def replace_all_copy_forward (cmp : α → α → Bool) (pat rep : List α) : List α → List α
| [] => []
| a :: ts =>
  if prefix_matches cmp (a :: ts) pat then
    rep ++ replace_all_copy_forward cmp pat rep (ts.drop (pat.length - 1))
  else
    a :: replace_all_copy_forward cmp pat rep ts
termination_by t => t.length
decreasing_by
· simp only [List.length_drop, List.length_cons]; omega
· simp only [List.length_cons]; omega

/-- Fuel-indexed evaluator for `replace_all_copy_forward`: the same recursion
made structural on a fuel counter so that concrete runs reduce inside the
kernel.  `racf_eval` proves that any fuel of at least the text length computes
`replace_all_copy_forward` (each step consumes at least one text unit). -/
def replace_all_copy_go (cmp : α → α → Bool) (pat rep : List α) : Nat → List α → List α
| _, [] => []
| 0, a :: ts => a :: ts
| fuel + 1, a :: ts =>
  if prefix_matches cmp (a :: ts) pat then
    rep ++ replace_all_copy_go cmp pat rep fuel (ts.drop (pat.length - 1))
  else a :: replace_all_copy_go cmp pat rep fuel ts

/-- `implementation::replace_all_in_place_forward`: find the first match; if
none, the text is left untouched.  Otherwise clip the text to the part before
the match, append the replacement, and run the copy-based algorithm on the
copied tail, appending onto the clipped text. -/
def replace_all_in_place_forward (cmp : α → α → Bool) (text pat rep : List α) : List α :=
if (find_forward_optimized cmp text pat).1 ≠ text.length then
  (text.take (find_forward_optimized cmp text pat).1 ++ rep) ++
    replace_all_copy_forward cmp pat rep (text.drop (find_forward_optimized cmp text pat).2)
else text

/-- Position reached by `implementation::trim_iterator`: the iterator advances
while the predicate holds, so it moves by the number of leading units of its
remaining sequence that satisfy the predicate. -/
def trim_iterator (pred : α → Bool) : List α → Nat
| [] => 0
| a :: t => if pred a then trim_iterator pred t + 1 else 0

/-- `implementation::trim_copy`: trim the start with a forward iterator (when
enabled); if the forward iterator is not at the end, trim the end with a
reverse iterator (when enabled) and copy the surviving bounds, else the result
is empty.  The reverse iterator trims `trim_iterator pred text.reverse` units
off the original end, and its base is the forward position `length - b`. -/
def trim_copy (text : List α) (pred : α → Bool) (trim_start_enable trim_end_enable : Bool) : List α :=
let a := if trim_start_enable then trim_iterator pred text else 0
if a ≠ text.length then
  let b := if trim_end_enable then trim_iterator pred text.reverse else 0
  (text.drop a).take (text.length - b - a)
else []

end implementation

/-- `cppstringx::contains` (comparer overload): an empty contained string is
always contained; otherwise the contained string is found iff the begin
position of the range returned by `find_forward_optimized` is not the text
end. -/
def contains (text contained : List α) (cmp : α → α → Bool) : Bool :=
contained.isEmpty ||
  !((implementation.find_forward_optimized cmp text contained).1 == text.length)

/-- `cppstringx::replace_all_copy` (comparer overload): throws
`std::invalid_argument` when `text_to_be_replaced` is empty, modelled as
`Except.error`; otherwise builds the result with
`replace_all_copy_forward`. -/
def replace_all_copy (text text_to_be_replaced text_to_replace_with : List α)
    (cmp : α → α → Bool) : Except String (List α) :=
if text_to_be_replaced.isEmpty then
  Except.error "The replace_all_copy input parameter text_to_be_replaced must not be empty."
else
  Except.ok (implementation.replace_all_copy_forward cmp text_to_be_replaced text_to_replace_with text)

/-- `cppstringx::replace_all_in_place` (comparer overload): the C++ function
mutates `text` by reference and throws before any mutation when the pattern is
empty.  Modelled state-passing style: the result is the thrown-or-returned
outcome together with the final contents of `text`. -/
def replace_all_in_place (text text_to_be_replaced text_to_replace_with : List α)
    (cmp : α → α → Bool) : Except String Unit × List α :=
if text_to_be_replaced.isEmpty then
  (Except.error "The replace_all_in_place input parameter text_to_be_replaced must not be empty.",
    text)
else
  (Except.ok (),
    implementation.replace_all_in_place_forward cmp text text_to_be_replaced text_to_replace_with)

/-- `cppstringx::trim_copy(text)` facade: trim both ends with the default
whitespace predicate. -/
def trim_copy (text : List Char) : List Char :=
implementation.trim_copy text utility.is_space true true

/-- `cppstringx::trim_start_copy(text)` facade. -/
def trim_start_copy (text : List Char) : List Char :=
implementation.trim_copy text utility.is_space true false

/-- `cppstringx::trim_end_copy(text)` facade. -/
def trim_end_copy (text : List Char) : List Char :=
implementation.trim_copy text utility.is_space false true

/-- `cppstringx::split_mode`. -/
inductive split_mode where
| all : split_mode
| skip_empty : split_mode
deriving BEq, DecidableEq

/-- State of a `cppstringx::split_token_iterator`.  The iterator stores only
references to the text, separator and comparer, which are therefore passed to
every operation; the stored cursors and ranges are absolute indices. -/
structure split_token_iterator where
  itt_text : Nat
  current_separator : Nat × Nat
  current_range : Nat × Nat
  is_end : Bool
deriving DecidableEq

namespace split_token_iterator

/-- One execution of the body of the `while` loop inside
`split_token_iterator::advance`: record whether the previous search already
failed, move the text cursor just past the previous separator, search for the
next separator and publish the range between them. -/
def advance_step (cmp : α → α → Bool) (text sep : List α) (s : split_token_iterator) :
    split_token_iterator :=
let e := s.current_separator.1 == text.length
let pos := s.current_separator.2
let found := implementation.find_from cmp text sep pos
⟨pos, found, (pos, found.1), e⟩

/-- The `while` loop of `split_token_iterator::advance`.  `fuel` bounds the
number of body executions; only `skip_empty` mode ever re-runs the body (to
skip empty sections), and for a non-empty separator the cursor strictly
advances, so the body runs at most `text.length + 3` times and the fuel
supplied by `advance` is never exhausted. -/
def advance_loop (cmp : α → α → Bool) (text sep : List α) (mode : split_mode) :
    Nat → split_token_iterator → split_token_iterator
| 0, s => s
| fuel + 1, s =>
  if s.is_end then s
  else
    let s2 := advance_step cmp text sep s
    if mode == split_mode.skip_empty && s2.current_separator.1 == s2.itt_text then
      advance_loop cmp text sep mode fuel s2
    else s2

/-- `split_token_iterator::advance`. -/
def advance (cmp : α → α → Bool) (text sep : List α) (mode : split_mode)
    (s : split_token_iterator) : split_token_iterator :=
advance_loop cmp text sep mode (text.length + 4) s

/-- The `split_token_iterator` constructor: an empty separator raises
`std::invalid_argument` (modelled as `Except.error`).  Otherwise the cursor
and the last-separator range start at position `0`; the constructor advances
to the first section unless the text is empty in `all` mode, in which case the
published range is the empty range at the start. -/
def mk_iterator (cmp : α → α → Bool) (text sep : List α) (mode : split_mode) :
    Except String split_token_iterator :=
if sep.isEmpty then
  Except.error "The separator_token input parameter for the split_token_iterator must not be empty."
else
  let s0 : split_token_iterator := ⟨0, (0, 0), (0, 0), false⟩
  if !text.isEmpty || mode == split_mode.skip_empty then
    Except.ok (advance cmp text sep mode s0)
  else
    Except.ok ⟨0, (0, 0), (0, 0), false⟩

end split_token_iterator

/-- The collection loop of `cppstringx::split_token`: while the iterator is
not at its end, extract the current range as a section and advance.  `fuel`
bounds the number of collected sections; for a non-empty separator at most
`text.length + 1` sections exist, so the fuel supplied by `split_token` is
never exhausted. -/
def split_token_collect (cmp : α → α → Bool) (text sep : List α) (mode : split_mode) :
    Nat → split_token_iterator → List (List α)
| 0, _ => []
| fuel + 1, s =>
  if s.is_end then []
  else
    (text.drop s.current_range.1).take (s.current_range.2 - s.current_range.1) ::
      split_token_collect cmp text sep mode fuel
        (split_token_iterator.advance cmp text sep mode s)

/-- `cppstringx::split_token` (comparer overload, `clear_container = true`):
the output container is modelled as the returned list of sections. -/
def split_token (text sep : List α) (mode : split_mode) (cmp : α → α → Bool) :
    Except String (List (List α)) :=
Except.map (split_token_collect cmp text sep mode (text.length + 2))
  (split_token_iterator.mk_iterator cmp text sep mode)

/-- `cppstringx::copy(target, text_to_copy, clear_target)`: clear the target if
requested, then append every unit of the source. -/
def copy (target text_to_copy : List α) (clear_target : Bool) : List α :=
(if clear_target then [] else target) ++ text_to_copy

/-- `cppstringx::join`: clear the target if requested, then append every item
of the container, inserting the separator before every item except the
first. -/
def join (target : List α) (container : List (List α)) (separator : List α)
    (clear_target : Bool) : List α :=
(container.foldl
  (fun acc item =>
    (copy (if acc.2 then acc.1 else copy acc.1 separator false) item false, false))
  ((if clear_target then [] else target), true)).1

/-- Separator-prefixed concatenation: the shape `join` gives to all items after
the first one. -/
def sepConcat (sep : List α) : List (List α) → List α
| [] => []
| x :: xs => sep ++ x ++ sepConcat sep xs

/-- The fully determined state of a token split iterator in `all` mode whose
cursor was advanced to the section starting at position `p`. -/
def stateAt (cmp : α → α → Bool) (text sep : List α) (p : Nat) : split_token_iterator :=
⟨p, implementation.find_from cmp text sep p,
  (p, (implementation.find_from cmp text sep p).1), false⟩

/-- Decidable equality of `Except` outcomes, used to evaluate the embedding on
concrete inputs. -/
instance {ε σ : Type} [DecidableEq ε] [DecidableEq σ] : DecidableEq (Except ε σ) := fun x y =>
match x, y with
| Except.error a, Except.error b =>
  if h : a = b then Decidable.isTrue (congrArg Except.error h)
  else Decidable.isFalse (fun hh => h (Except.error.inj hh))
| Except.error _, Except.ok _ => Decidable.isFalse (fun hh => Except.noConfusion hh)
| Except.ok _, Except.error _ => Decidable.isFalse (fun hh => Except.noConfusion hh)
| Except.ok a, Except.ok b =>
  if h : a = b then Decidable.isTrue (congrArg Except.ok h)
  else Decidable.isFalse (fun hh => h (Except.ok.inj hh))

/-! ## Properties of the core matching algorithms -/

namespace implementation

theorem prefix_matches_nil_right (cmp : α → α → Bool) (t : List α) :
    prefix_matches cmp t [] = true := by
cases t <;> rfl

theorem prefix_matches_eq_full_match_take (cmp : α → α → Bool) :
    ∀ (p t : List α), prefix_matches cmp t p = full_match cmp (t.take p.length) p := by
intro p
induction p with
| nil => intro t; cases t <;> simp [prefix_matches, full_match]
| cons b ps ih =>
  intro t
  cases t with
  | nil => simp [prefix_matches, full_match]
  | cons a ts => simp [prefix_matches, full_match, List.take_succ_cons, ih ts]

theorem full_match_append (cmp : α → α → Bool) :
    ∀ (s p r : List α), full_match cmp s p = true → prefix_matches cmp (s ++ r) p = true := by
intro s
induction s with
| nil =>
  intro p r h
  cases p with
  | nil => simp [prefix_matches_nil_right]
  | cons b ps => simp [full_match] at h
| cons a ss ih =>
  intro p r h
  cases p with
  | nil => simp [prefix_matches_nil_right]
  | cons b ps =>
    simp only [full_match, Bool.and_eq_true] at h
    simp only [List.cons_append, prefix_matches, Bool.and_eq_true]
    exact ⟨h.1, ih ps r h.2⟩

theorem prefix_matches_length_le (cmp : α → α → Bool) :
    ∀ (p t : List α), prefix_matches cmp t p = true → p.length ≤ t.length := by
intro p
induction p with
| nil => intro t _; simp
| cons b ps ih =>
  intro t h
  cases t with
  | nil => simp [prefix_matches] at h
  | cons a ts =>
    simp only [prefix_matches, Bool.and_eq_true] at h
    have := ih ts h.2
    simp only [List.length_cons]
    omega

theorem prefix_matches_of_short (cmp : α → α → Bool) (t p : List α)
    (h : t.length < p.length) : prefix_matches cmp t p = false := by
cases hb : prefix_matches cmp t p
· rfl
· exact absurd (prefix_matches_length_le cmp p t hb) (by omega)

theorem lockstepLen_le_right (cmp : α → α → Bool) :
    ∀ (t p : List α), lockstepLen cmp t p ≤ p.length := by
intro t
induction t with
| nil => intro p; cases p <;> simp [lockstepLen]
| cons a ts ih =>
  intro p
  cases p with
  | nil => simp [lockstepLen]
  | cons b ps =>
    simp only [lockstepLen]
    cases h : cmp a b
    · simp
    · simp only [if_pos rfl, List.length_cons]
      exact Nat.succ_le_succ (ih ps)

theorem prefix_matches_iff_lockstepLen (cmp : α → α → Bool) :
    ∀ (t p : List α), prefix_matches cmp t p = true ↔ lockstepLen cmp t p = p.length := by
intro t
induction t with
| nil =>
  intro p
  cases p with
  | nil => simp [prefix_matches, lockstepLen]
  | cons b ps => simp [prefix_matches, lockstepLen]
| cons a ts ih =>
  intro p
  cases p with
  | nil => simp [prefix_matches_nil_right, lockstepLen]
  | cons b ps =>
    cases h : cmp a b
    · simp [prefix_matches, lockstepLen, h]
    · have hl : lockstepLen cmp (a :: ts) (b :: ps) = lockstepLen cmp ts ps + 1 := by
        simp [lockstepLen, h]
      have hp : prefix_matches cmp (a :: ts) (b :: ps) = prefix_matches cmp ts ps := by
        simp [prefix_matches, h]
      rw [hl, hp, ih ps, List.length_cons]
      omega

theorem ffo_go_eq (cmp : α → α → Bool) (pat : List α) (n : Nat) :
    ∀ (t : List α) (i : Nat), t.length + i = n →
      (∃ k, prefix_matches cmp (t.drop k) pat = true ∧
          (∀ j, j < k → prefix_matches cmp (t.drop j) pat = false) ∧
          ffo_go cmp pat n t i = (i + k, i + k + pat.length)) ∨
        ((∀ k, prefix_matches cmp (t.drop k) pat = false) ∧
          ffo_go cmp pat n t i = (n, n)) := by
intro t
induction t with
| nil =>
  intro i hi
  simp only [List.length_nil, Nat.zero_add] at hi
  cases hpat : pat with
  | nil =>
    left
    refine ⟨0, ?_, ?_, ?_⟩
    · simp [prefix_matches_nil_right]
    · intro j hj; omega
    · subst hi; simp [ffo_go]
  | cons b ps =>
    right
    refine ⟨?_, by simp [ffo_go]⟩
    intro k
    simp [List.drop_nil, prefix_matches]
| cons a ts ih =>
  intro i hi
  by_cases h1 : lockstepLen cmp (a :: ts) pat = pat.length
  · left
    refine ⟨0, ?_, ?_, ?_⟩
    · exact (prefix_matches_iff_lockstepLen cmp (a :: ts) pat).mpr h1
    · intro j hj; omega
    · unfold ffo_go
      rw [if_pos h1, h1]
      simp
  · by_cases h2 : lockstepLen cmp (a :: ts) pat = (a :: ts).length
    · right
      have hle := lockstepLen_le_right cmp (a :: ts) pat
      refine ⟨?_, ?_⟩
      · intro k
        apply prefix_matches_of_short
        have hdl : (List.drop k (a :: ts)).length = (a :: ts).length - k := by
          simp [List.length_drop]
        simp only [List.length_cons] at h2 hdl ⊢
        rw [hdl]
        omega
      · unfold ffo_go
        rw [if_neg h1, if_pos h2]
    · have hstep : ffo_go cmp pat n (a :: ts) i = ffo_go cmp pat n ts (i + 1) := by
        conv_lhs => unfold ffo_go
        rw [if_neg h1, if_neg h2]
      have h0 : prefix_matches cmp (a :: ts) pat = false := by
        cases hb : prefix_matches cmp (a :: ts) pat
        · rfl
        · exact absurd ((prefix_matches_iff_lockstepLen cmp (a :: ts) pat).mp hb) h1
      have hts : ts.length + (i + 1) = n := by
        simp only [List.length_cons] at hi; omega
      rcases ih (i + 1) hts with ⟨k, hk1, hk2, hk3⟩ | ⟨hall, heq⟩
      · left
        refine ⟨k + 1, ?_, ?_, ?_⟩
        · simpa [List.drop_succ_cons] using hk1
        · intro j hj
          cases j with
          | zero => simpa using h0
          | succ j2 => simpa [List.drop_succ_cons] using hk2 j2 (by omega)
        · rw [hstep, hk3]
          have hik : i + 1 + k = i + (k + 1) := by omega
          rw [hik]
      · right
        refine ⟨?_, by rw [hstep, heq]⟩
        intro k
        cases k with
        | zero => simpa using h0
        | succ k2 => simpa [List.drop_succ_cons] using hall k2

theorem find_forward_optimized_found (cmp : α → α → Bool) (t pat : List α) (k : Nat)
    (h1 : prefix_matches cmp (t.drop k) pat = true)
    (h2 : ∀ j, j < k → prefix_matches cmp (t.drop j) pat = false) :
    find_forward_optimized cmp t pat = (k, k + pat.length) := by
rcases ffo_go_eq cmp pat t.length t 0 (by omega) with ⟨k2, hk1, hk2, hk3⟩ | ⟨hall, _⟩
· have hkk : k2 = k := by
    rcases Nat.lt_trichotomy k2 k with h | h | h
    · rw [h2 k2 h] at hk1; cases hk1
    · exact h
    · rw [hk2 k h] at h1; cases h1
  subst hkk
  simpa [find_forward_optimized] using hk3
· rw [hall k] at h1; cases h1

theorem find_forward_optimized_not_found (cmp : α → α → Bool) (t pat : List α)
    (hall : ∀ k, prefix_matches cmp (t.drop k) pat = false) :
    find_forward_optimized cmp t pat = (t.length, t.length) := by
rcases ffo_go_eq cmp pat t.length t 0 (by omega) with ⟨k2, hk1, _, _⟩ | ⟨_, heq⟩
· rw [hall k2] at hk1; cases hk1
· exact heq

end implementation

theorem contains_iff_exists_match (cmp : α → α → Bool) (t pat : List α) :
    contains t pat cmp = true ↔
      ∃ k, implementation.prefix_matches cmp (t.drop k) pat = true := by
cases pat with
| nil =>
  constructor
  · intro _
    exact ⟨0, implementation.prefix_matches_nil_right cmp (t.drop 0)⟩
  · intro _
    simp [contains]
| cons b ps =>
  constructor
  · intro hc
    by_contra hno
    push_neg at hno
    have hall : ∀ k, implementation.prefix_matches cmp (t.drop k) (b :: ps) = false := by
      intro k
      cases hx : implementation.prefix_matches cmp (t.drop k) (b :: ps)
      · rfl
      · exact absurd hx (hno k)
    have hnf := implementation.find_forward_optimized_not_found cmp t (b :: ps) hall
    simp [contains, hnf] at hc
  · rintro ⟨k, hk⟩
    have hex : ∃ j, implementation.prefix_matches cmp (t.drop j) (b :: ps) = true := ⟨k, hk⟩
    have h1 := Nat.find_spec hex
    have h2 : ∀ j, j < Nat.find hex →
        implementation.prefix_matches cmp (t.drop j) (b :: ps) = false := by
      intro j hj
      cases hx : implementation.prefix_matches cmp (t.drop j) (b :: ps)
      · rfl
      · exact absurd hx (Nat.find_min hex hj)
    have hf := implementation.find_forward_optimized_found cmp t (b :: ps) (Nat.find hex) h1 h2
    have hlt : Nat.find hex < t.length := by
      have := implementation.prefix_matches_length_le cmp (b :: ps) (t.drop (Nat.find hex)) h1
      simp only [List.length_drop, List.length_cons] at this
      omega
    simp [contains, hf]
    omega

/-! ## Properties of the replace algorithms -/

namespace implementation

theorem racf_nil (cmp : α → α → Bool) (pat rep : List α) :
    replace_all_copy_forward cmp pat rep [] = [] := by
simp [replace_all_copy_forward]

theorem racf_cons (cmp : α → α → Bool) (pat rep : List α) (a : α) (ts : List α) :
    replace_all_copy_forward cmp pat rep (a :: ts) =
      if prefix_matches cmp (a :: ts) pat then
        rep ++ replace_all_copy_forward cmp pat rep (ts.drop (pat.length - 1))
      else a :: replace_all_copy_forward cmp pat rep ts := by
conv_lhs => unfold replace_all_copy_forward

theorem racf_id_of_no_match (cmp : α → α → Bool) (pat rep : List α) :
    ∀ t : List α, (∀ k, prefix_matches cmp (t.drop k) pat = false) →
      replace_all_copy_forward cmp pat rep t = t := by
intro t
induction t with
| nil => intro _; exact racf_nil cmp pat rep
| cons a ts ih =>
  intro h
  have h0 : prefix_matches cmp (a :: ts) pat = false := by simpa using h 0
  have hts : ∀ k, prefix_matches cmp (ts.drop k) pat = false := fun k => by
    simpa [List.drop_succ_cons] using h (k + 1)
  rw [racf_cons, if_neg (by simp [h0]), ih hts]

theorem racf_leftmost (cmp : α → α → Bool) (pat rep : List α) (hp : pat ≠ []) :
    ∀ (k : Nat) (t : List α), prefix_matches cmp (t.drop k) pat = true →
      (∀ j, j < k → prefix_matches cmp (t.drop j) pat = false) →
      replace_all_copy_forward cmp pat rep t =
        t.take k ++ rep ++ replace_all_copy_forward cmp pat rep (t.drop (k + pat.length)) := by
intro k
induction k with
| zero =>
  intro t h1 _
  cases t with
  | nil =>
    simp only [List.drop_nil] at h1
    cases pat with
    | nil => exact absurd rfl hp
    | cons b ps => simp [prefix_matches] at h1
  | cons a ts =>
    simp only [List.drop_zero] at h1
    rw [racf_cons, if_pos h1]
    cases pat with
    | nil => exact absurd rfl hp
    | cons b ps =>
      simp only [List.take_zero, List.nil_append, List.length_cons, Nat.add_sub_cancel,
        Nat.zero_add, List.drop_succ_cons]
| succ k ih =>
  intro t h1 h2
  cases t with
  | nil =>
    simp only [List.drop_nil] at h1
    cases pat with
    | nil => exact absurd rfl hp
    | cons b ps => simp [prefix_matches] at h1
  | cons a ts =>
    have h0 : prefix_matches cmp (a :: ts) pat = false := by
      simpa using h2 0 (Nat.succ_pos k)
    have hts1 : prefix_matches cmp (ts.drop k) pat = true := by
      simpa [List.drop_succ_cons] using h1
    have hts2 : ∀ j, j < k → prefix_matches cmp (ts.drop j) pat = false := fun j hj => by
      simpa [List.drop_succ_cons] using h2 (j + 1) (by omega)
    rw [racf_cons, if_neg (by simp [h0]), ih ts hts1 hts2]
    have harith : k + 1 + pat.length = (k + pat.length) + 1 := by omega
    rw [harith, List.take_succ_cons, List.drop_succ_cons, List.cons_append, List.cons_append]

theorem racf_eval (cmp : α → α → Bool) (pat rep : List α) :
    ∀ (fuel : Nat) (t : List α), t.length ≤ fuel →
      replace_all_copy_go cmp pat rep fuel t = replace_all_copy_forward cmp pat rep t := by
intro fuel
induction fuel with
| zero =>
  intro t ht
  have hnil : t = [] := List.eq_nil_of_length_eq_zero (by omega)
  rw [hnil, racf_nil]
  rfl
| succ f ih =>
  intro t ht
  cases t with
  | nil => rw [racf_nil]; rfl
  | cons a ts =>
    have hgo : replace_all_copy_go cmp pat rep (f + 1) (a :: ts) =
        if prefix_matches cmp (a :: ts) pat then
          rep ++ replace_all_copy_go cmp pat rep f (ts.drop (pat.length - 1))
        else a :: replace_all_copy_go cmp pat rep f ts := rfl
    rw [hgo, racf_cons]
    by_cases h : prefix_matches cmp (a :: ts) pat = true
    · rw [if_pos h, if_pos h]
      rw [ih (ts.drop (pat.length - 1))
        (by simp only [List.length_drop, List.length_cons] at *; omega)]
    · rw [if_neg h, if_neg h]
      rw [ih ts (by simp only [List.length_cons] at ht; omega)]

theorem replace_all_in_place_forward_eq (cmp : α → α → Bool) (t pat rep : List α)
    (hp : pat ≠ []) :
    replace_all_in_place_forward cmp t pat rep = replace_all_copy_forward cmp pat rep t := by
rcases ffo_go_eq cmp pat t.length t 0 (by omega) with ⟨k, hk1, hk2, hk3⟩ | ⟨hall, heq⟩
· have hf : find_forward_optimized cmp t pat = (k, k + pat.length) := by
    simpa [find_forward_optimized] using hk3
  have hklt : k < t.length := by
    have := prefix_matches_length_le cmp pat (t.drop k) hk1
    simp only [List.length_drop] at this
    cases pat with
    | nil => exact absurd rfl hp
    | cons b ps => simp only [List.length_cons] at this; omega
  unfold replace_all_in_place_forward
  rw [hf]
  rw [if_pos (by simp; omega)]
  rw [racf_leftmost cmp pat rep hp k t hk1 hk2]
· have hf : find_forward_optimized cmp t pat = (t.length, t.length) := heq
  unfold replace_all_in_place_forward
  rw [hf]
  rw [if_neg (by simp)]
  exact (racf_id_of_no_match cmp pat rep t hall).symm

theorem prefix_matches_equals_take :
    ∀ (pat t : List Char), prefix_matches utility.equals_comparer t pat = true →
      t.take pat.length = pat := by
intro pat
induction pat with
| nil => intro t _; simp
| cons b ps ih =>
  intro t h
  cases t with
  | nil => simp [prefix_matches] at h
  | cons a ts =>
    simp only [prefix_matches, Bool.and_eq_true] at h
    have hab : a = b := eq_of_beq h.1
    rw [List.length_cons, List.take_succ_cons, ih ts h.2, hab]

theorem racf_self (pat : List Char) (hp : pat ≠ []) :
    ∀ t : List Char, replace_all_copy_forward utility.equals_comparer pat pat t = t := by
have main : ∀ (m : Nat) (t : List Char), t.length ≤ m →
    replace_all_copy_forward utility.equals_comparer pat pat t = t := by
  intro m
  induction m with
  | zero =>
    intro t ht
    have hnil : t = [] := List.eq_nil_of_length_eq_zero (by omega)
    rw [hnil]
    exact racf_nil _ _ _
  | succ m ih =>
    intro t ht
    cases t with
    | nil => exact racf_nil _ _ _
    | cons a ts =>
      rw [racf_cons]
      by_cases hpm : prefix_matches utility.equals_comparer (a :: ts) pat = true
      case neg =>
        rw [if_neg hpm]
        rw [ih ts (by simp only [List.length_cons] at ht; omega)]
      case pos =>
        rw [if_pos hpm]
        have htake := prefix_matches_equals_take pat (a :: ts) hpm
        have hpos : 1 ≤ pat.length := by
          cases pat with
          | nil => exact absurd rfl hp
          | cons c cs => simp
        have hdrop : ts.drop (pat.length - 1) = (a :: ts).drop pat.length := by
          cases pat with
          | nil => exact absurd rfl hp
          | cons c cs =>
            simp only [List.length_cons, Nat.add_sub_cancel, List.drop_succ_cons]
        rw [hdrop]
        rw [ih ((a :: ts).drop pat.length)
          (by simp only [List.length_drop, List.length_cons] at *; omega)]
        conv_rhs => rw [← List.take_append_drop pat.length (a :: ts)]
        rw [htake]
intro t
exact main t.length t (Nat.le_refl _)

end implementation

/-! ## Properties of the trim algorithms -/

namespace implementation

theorem trim_iterator_le (pred : α → Bool) : ∀ t : List α, trim_iterator pred t ≤ t.length := by
intro t
induction t with
| nil => simp [trim_iterator]
| cons a ts ih =>
  cases h : pred a
  · simp [trim_iterator, h]
  · have he : trim_iterator pred (a :: ts) = trim_iterator pred ts + 1 := by
      simp [trim_iterator, h]
    rw [he, List.length_cons]
    omega

theorem trim_iterator_eq_length_iff (pred : α → Bool) :
    ∀ t : List α, trim_iterator pred t = t.length ↔ ∀ x ∈ t, pred x = true := by
intro t
induction t with
| nil => simp [trim_iterator]
| cons a ts ih =>
  cases h : pred a
  · have h0 : trim_iterator pred (a :: ts) = 0 := by simp [trim_iterator, h]
    rw [h0, List.length_cons]
    constructor
    · intro he; exact absurd he.symm (Nat.succ_ne_zero _)
    · intro hall
      exact absurd (hall a (List.mem_cons_self a ts)) (by simp [h])
  · have h1 : trim_iterator pred (a :: ts) = trim_iterator pred ts + 1 := by
      simp [trim_iterator, h]
    rw [h1, List.length_cons]
    constructor
    · intro he x hx
      rcases List.mem_cons.mp hx with rfl | hx2
      · exact h
      · exact (ih.mp (by omega)) x hx2
    · intro hall
      have := ih.mpr (fun x hx => hall x (List.mem_cons_of_mem a hx))
      omega

theorem trim_iterator_append_of_lt (pred : α → Bool) (ys : List α) :
    ∀ xs : List α, trim_iterator pred xs < xs.length →
      trim_iterator pred (xs ++ ys) = trim_iterator pred xs := by
intro xs
induction xs with
| nil => intro h; simp at h
| cons a ts ih =>
  intro h
  cases hp : pred a
  · simp [trim_iterator, hp]
  · have h1 : trim_iterator pred (a :: ts) = trim_iterator pred ts + 1 := by
      simp [trim_iterator, hp]
    have h2 : trim_iterator pred (a :: ts ++ ys) = trim_iterator pred (ts ++ ys) + 1 := by
      simp [trim_iterator, hp]
    rw [h2, h1, ih (by rw [h1, List.length_cons] at h; omega)]

theorem trim_iterator_head_false (pred : α → Bool) :
    ∀ t : List α, trim_iterator pred t < t.length →
      ∃ c cs, t.drop (trim_iterator pred t) = c :: cs ∧ pred c = false := by
intro t
induction t with
| nil => intro h; simp at h
| cons a ts ih =>
  intro h
  cases hp : pred a
  · have h0 : trim_iterator pred (a :: ts) = 0 := by simp [trim_iterator, hp]
    exact ⟨a, ts, by rw [h0, List.drop_zero], hp⟩
  · have h1 : trim_iterator pred (a :: ts) = trim_iterator pred ts + 1 := by
      simp [trim_iterator, hp]
    rw [h1, List.drop_succ_cons]
    exact ih (by rw [h1, List.length_cons] at h; omega)

theorem trim_copy_all (pred : α → Bool) (t : List α)
    (ha : trim_iterator pred t = t.length) :
    trim_copy t pred true true = [] ∧ trim_copy t pred true false = [] := by
constructor
· simp [trim_copy, ha]
· simp [trim_copy, ha]

theorem trim_copy_start_of_lt (pred : α → Bool) (t : List α)
    (hlt : trim_iterator pred t < t.length) :
    trim_copy t pred true false = t.drop (trim_iterator pred t) := by
simp only [trim_copy, if_true]
rw [if_pos (by omega)]
simp only [Bool.false_eq_true, if_false, Nat.sub_zero]
rw [← List.length_drop]
exact List.take_length _

theorem trim_copy_compose (pred : α → Bool) (t : List α) :
    trim_copy t pred true true = trim_copy (trim_copy t pred true false) pred false true := by
by_cases ha : trim_iterator pred t = t.length
· have h1 := (trim_copy_all pred t ha).1
  have h2 := (trim_copy_all pred t ha).2
  rw [h1, h2]
  simp [trim_copy]
· have hlt : trim_iterator pred t < t.length :=
    Nat.lt_of_le_of_ne (trim_iterator_le pred t) ha
  obtain ⟨c, cs, hdrop, hc⟩ := trim_iterator_head_false pred t hlt
  have h2 := trim_copy_start_of_lt pred t hlt
  have hlen0 : (t.drop (trim_iterator pred t)).length ≠ 0 := by
    rw [hdrop]; simp
  have hrevlt : trim_iterator pred (t.drop (trim_iterator pred t)).reverse <
      (t.drop (trim_iterator pred t)).reverse.length := by
    have hne2 : ¬ ∀ x ∈ (t.drop (trim_iterator pred t)).reverse, pred x = true := by
      intro hall
      have hcmem : c ∈ (t.drop (trim_iterator pred t)).reverse := by
        rw [hdrop, List.mem_reverse]
        exact List.mem_cons_self c cs
      have := hall c hcmem
      rw [this] at hc; cases hc
    have hle := trim_iterator_le pred (t.drop (trim_iterator pred t)).reverse
    have hne3 : trim_iterator pred (t.drop (trim_iterator pred t)).reverse ≠
        (t.drop (trim_iterator pred t)).reverse.length := by
      intro he
      exact hne2 ((trim_iterator_eq_length_iff pred _).mp he)
    omega
  have hrev : trim_iterator pred t.reverse =
      trim_iterator pred (t.drop (trim_iterator pred t)).reverse := by
    have hsplit : t.reverse =
        (t.drop (trim_iterator pred t)).reverse ++ (t.take (trim_iterator pred t)).reverse := by
      rw [← List.reverse_append, List.take_append_drop]
    rw [hsplit]
    exact trim_iterator_append_of_lt pred _ _ hrevlt
  have hLHS : trim_copy t pred true true =
      (t.drop (trim_iterator pred t)).take
        (t.length - trim_iterator pred t.reverse - trim_iterator pred t) := by
    simp only [trim_copy, if_true]
    rw [if_pos (by omega)]
  have hRHS : trim_copy (t.drop (trim_iterator pred t)) pred false true =
      (t.drop (trim_iterator pred t)).take
        ((t.drop (trim_iterator pred t)).length -
          trim_iterator pred (t.drop (trim_iterator pred t)).reverse) := by
    simp only [trim_copy, Bool.false_eq_true, if_false]
    rw [if_pos (by omega)]
    simp
  rw [hLHS, h2, hRHS]
  congr 1
  rw [List.length_drop, hrev]
  omega

end implementation

theorem exists_prefix_iff_exists_slice (cmp : α → α → Bool) (t p : List α) :
    (∃ k, implementation.prefix_matches cmp (t.drop k) p = true) ↔
      (∃ i j, i ≤ j ∧ j ≤ t.length ∧
        implementation.full_match cmp ((t.drop i).take (j - i)) p = true) := by
constructor
· rintro ⟨k, hk⟩
  by_cases hkt : k ≤ t.length
  · refine ⟨k, k + p.length, by omega, ?_, ?_⟩
    · have := implementation.prefix_matches_length_le cmp p (t.drop k) hk
      simp only [List.length_drop] at this
      omega
    · have := implementation.prefix_matches_eq_full_match_take cmp p (t.drop k)
      rw [hk] at this
      have harith : k + p.length - k = p.length := by omega
      rw [harith]
      exact this.symm
  · have hdrop : t.drop k = [] := List.drop_eq_nil_of_le (by omega)
    rw [hdrop] at hk
    cases p with
    | nil =>
      refine ⟨0, 0, by omega, by omega, ?_⟩
      simp [implementation.full_match]
    | cons b ps => simp [implementation.prefix_matches] at hk
· rintro ⟨i, j, _, _, hfm⟩
  refine ⟨i, ?_⟩
  have hsplit : (t.drop i).take (j - i) ++ (t.drop i).drop (j - i) = t.drop i :=
    List.take_append_drop _ _
  rw [← hsplit]
  exact implementation.full_match_append cmp _ p _ hfm

/-! ## Properties of join and the token split iterator -/

theorem join_foldl_after_first (sep : List α) :
    ∀ (xs : List (List α)) (acc : List α),
      (xs.foldl (fun acc2 item =>
          (copy (if acc2.2 then acc2.1 else copy acc2.1 sep false) item false, false))
        (acc, false)).1 = acc ++ sepConcat sep xs := by
intro xs
induction xs with
| nil => intro acc; simp [sepConcat]
| cons x xs2 ih =>
  intro acc
  rw [List.foldl_cons]
  show (xs2.foldl _ ((acc ++ sep) ++ x, false)).1 = acc ++ sepConcat sep (x :: xs2)
  rw [ih ((acc ++ sep) ++ x), sepConcat]
  simp [List.append_assoc]

theorem join_cons_sepConcat (sep x : List α) (xs : List (List α)) :
    join [] (x :: xs) sep true = x ++ sepConcat sep xs := by
simp only [join, List.foldl_cons]
show (xs.foldl _ (x, false)).1 = x ++ sepConcat sep xs
exact join_foldl_after_first sep xs x

namespace implementation

theorem find_from_eq (cmp : α → α → Bool) (text sep : List α) (p : Nat)
    (hp : p ≤ text.length) :
    (∃ k, prefix_matches cmp (text.drop (p + k)) sep = true ∧
        (∀ j, j < k → prefix_matches cmp (text.drop (p + j)) sep = false) ∧
        find_from cmp text sep p = (p + k, p + k + sep.length)) ∨
      ((∀ k, prefix_matches cmp (text.drop (p + k)) sep = false) ∧
        find_from cmp text sep p = (text.length, text.length)) := by
have hlen : (text.drop p).length + p = text.length := by
  simp only [List.length_drop]; omega
rcases ffo_go_eq cmp sep text.length (text.drop p) p hlen with ⟨k, h1, h2, h3⟩ | ⟨hall, heq⟩
· left
  refine ⟨k, ?_, ?_, h3⟩
  · rwa [List.drop_drop] at h1
  · intro j hj
    have hh := h2 j hj
    rwa [List.drop_drop] at hh
· right
  refine ⟨?_, heq⟩
  intro k
  have hh := hall k
  rwa [List.drop_drop] at hh

end implementation

theorem beq_all_skip : (split_mode.all == split_mode.skip_empty) = false := rfl

theorem stateAt_is_end (cmp : α → α → Bool) (text sep : List α) (p : Nat) :
    (stateAt cmp text sep p).is_end = false := rfl

theorem advance_all (cmp : α → α → Bool) (text sep : List α) (s : split_token_iterator) :
    split_token_iterator.advance cmp text sep split_mode.all s =
      if s.is_end = true then s else split_token_iterator.advance_step cmp text sep s := by
show split_token_iterator.advance_loop cmp text sep split_mode.all (text.length + 4) s = _
have h4 : text.length + 4 = (text.length + 3) + 1 := rfl
rw [h4]
simp only [split_token_iterator.advance_loop]
by_cases he : s.is_end = true
· rw [if_pos he, if_pos he]
· rw [if_neg he, if_neg he]
  simp [beq_all_skip]

theorem collect_of_is_end (cmp : α → α → Bool) (text sep : List α) (mode : split_mode)
    (s : split_token_iterator) (h : s.is_end = true) :
    ∀ fuel, split_token_collect cmp text sep mode fuel s = [] := by
intro fuel
cases fuel with
| zero => rfl
| succ f => simp [split_token_collect, h]

theorem collect_cons_range (cmp : α → α → Bool) (text sep : List α) (mode : split_mode)
    (f : Nat) (s : split_token_iterator) (h : s.is_end = false) (b e : Nat)
    (hr : s.current_range = (b, e)) :
    split_token_collect cmp text sep mode (f + 1) s =
      (text.drop b).take (e - b) ::
        split_token_collect cmp text sep mode f
          (split_token_iterator.advance cmp text sep mode s) := by
simp [split_token_collect, h, hr]

theorem advance_stateAt_found (cmp : α → α → Bool) (text sep : List α) (p b : Nat)
    (hf : implementation.find_from cmp text sep p = (b, b + sep.length))
    (hb : b < text.length) :
    split_token_iterator.advance cmp text sep split_mode.all (stateAt cmp text sep p) =
      stateAt cmp text sep (b + sep.length) := by
rw [advance_all]
rw [if_neg (by rw [stateAt_is_end]; simp)]
have hbne : (b == text.length) = false := by
  simp only [beq_eq_false_iff_ne, ne_eq]
  omega
simp [split_token_iterator.advance_step, stateAt, hf, hbne]

theorem advance_stateAt_not_found (cmp : α → α → Bool) (text sep : List α) (p : Nat)
    (hf : implementation.find_from cmp text sep p = (text.length, text.length)) :
    (split_token_iterator.advance cmp text sep split_mode.all
      (stateAt cmp text sep p)).is_end = true := by
rw [advance_all]
rw [if_neg (by rw [stateAt_is_end]; simp)]
simp [split_token_iterator.advance_step, stateAt, hf]

theorem collect_all_sepConcat (text sep : List Char) (hsep : sep ≠ []) :
    ∀ (m p fuel : Nat), p ≤ text.length → text.length - p < m →
      text.length - p + 1 ≤ fuel →
      sepConcat sep
          (split_token_collect utility.equals_comparer text sep split_mode.all fuel
            (stateAt utility.equals_comparer text sep p)) =
        sep ++ text.drop p := by
intro m
induction m with
| zero => intro p fuel hp hm hf; omega
| succ m ih =>
  intro p fuel hp hm hf
  obtain ⟨f, rfl⟩ : ∃ f, fuel = f + 1 := ⟨fuel - 1, by omega⟩
  have hs1 : 1 ≤ sep.length := by
    cases sep with
    | nil => exact absurd rfl hsep
    | cons c cs => simp
  rcases implementation.find_from_eq utility.equals_comparer text sep p hp with
    ⟨k, hk1, hk2, hk3⟩ | ⟨hall, hnf⟩
  · have hble : p + k + sep.length ≤ text.length := by
      have := implementation.prefix_matches_length_le utility.equals_comparer sep
        (text.drop (p + k)) hk1
      simp only [List.length_drop] at this
      omega
    have hblt : p + k < text.length := by omega
    have htake : (text.drop (p + k)).take sep.length = sep :=
      implementation.prefix_matches_equals_take sep (text.drop (p + k)) hk1
    have hrange : (stateAt utility.equals_comparer text sep p).current_range = (p, p + k) := by
      simp [stateAt, hk3]
    rw [collect_cons_range _ _ _ _ _ _ (stateAt_is_end _ _ _ _) p (p + k) hrange]
    rw [advance_stateAt_found _ _ _ _ _ hk3 hblt]
    have hpk : p + k - p = k := by omega
    rw [hpk, sepConcat]
    rw [ih (p + k + sep.length) f (by omega) (by omega) (by omega)]
    have hsplit1 : text.drop p = (text.drop p).take k ++ text.drop (p + k) := by
      conv_lhs => rw [← List.take_append_drop k (text.drop p)]
      rw [List.drop_drop]
    have hsplit2 : text.drop (p + k) = sep ++ text.drop (p + k + sep.length) := by
      conv_lhs => rw [← List.take_append_drop sep.length (text.drop (p + k))]
      rw [htake, List.drop_drop]
    conv_rhs => rw [hsplit1, hsplit2]
    simp [List.append_assoc]
  · have hrange : (stateAt utility.equals_comparer text sep p).current_range =
        (p, text.length) := by
      simp [stateAt, hnf]
    rw [collect_cons_range _ _ _ _ _ _ (stateAt_is_end _ _ _ _) p text.length hrange]
    rw [collect_of_is_end _ _ _ _ _ (advance_stateAt_not_found _ _ _ _ hnf)]
    have htk : (text.drop p).take (text.length - p) = text.drop p := by
      rw [← List.length_drop]
      exact List.take_length _
    rw [htk]
    simp [sepConcat]

theorem mk_iterator_all_nonempty (cmp : α → α → Bool) (text sep : List α)
    (hsep : sep ≠ []) (htext : text ≠ []) :
    split_token_iterator.mk_iterator cmp text sep split_mode.all =
      Except.ok (stateAt cmp text sep 0) := by
have hse : sep.isEmpty = false := by
  cases sep with
  | nil => exact absurd rfl hsep
  | cons c cs => rfl
have hte : text.isEmpty = false := by
  cases text with
  | nil => exact absurd rfl htext
  | cons c cs => rfl
have h0 : (0 == text.length) = false := by
  simp only [beq_eq_false_iff_ne, ne_eq]
  cases text with
  | nil => exact absurd rfl htext
  | cons c cs => simp
simp only [split_token_iterator.mk_iterator, hse, hte, Bool.not_false, Bool.false_eq_true,
  if_false, beq_all_skip, Bool.or_false, if_true]
rw [advance_all]
rw [if_neg (by simp)]
simp [split_token_iterator.advance_step, stateAt, h0]

theorem split_token_nil_all (cmp : α → α → Bool) (sep : List α) (hsep : sep ≠ []) :
    split_token ([] : List α) sep split_mode.all cmp = Except.ok [[]] := by
cases sep with
| nil => exact absurd rfl hsep
| cons c cs => rfl

theorem split_token_all_round (t sep : List Char) (hsep : sep ≠ []) :
    ∃ secs, split_token t sep split_mode.all utility.equals_comparer = Except.ok secs ∧
      join [] secs sep true = t := by
cases t with
| nil =>
  refine ⟨[[]], split_token_nil_all _ _ hsep, ?_⟩
  rfl
| cons c0 t0 =>
  refine ⟨split_token_collect utility.equals_comparer (c0 :: t0) sep split_mode.all
      ((c0 :: t0).length + 2) (stateAt utility.equals_comparer (c0 :: t0) sep 0), ?_, ?_⟩
  · rw [split_token, mk_iterator_all_nonempty _ _ _ hsep (by simp)]
    rfl
  · have hmain := collect_all_sepConcat (c0 :: t0) sep hsep ((c0 :: t0).length + 1) 0
      ((c0 :: t0).length + 2) (by omega) (by omega) (by omega)
    have h22 : (c0 :: t0).length + 2 = ((c0 :: t0).length + 1) + 1 := rfl
    have hrange0 : (stateAt utility.equals_comparer (c0 :: t0) sep 0).current_range =
        (0, (implementation.find_from utility.equals_comparer (c0 :: t0) sep 0).1) := rfl
    rw [h22, collect_cons_range _ _ _ _ _ _ (stateAt_is_end _ _ _ _) 0
      (implementation.find_from utility.equals_comparer (c0 :: t0) sep 0).1 hrange0] at hmain ⊢
    rw [sepConcat] at hmain
    simp only [List.append_assoc, List.drop_zero] at hmain
    rw [join_cons_sepConcat]
    exact List.append_cancel_left hmain

/-! ## Claims -/

/-- C1: for every text, pattern and comparer, `contains` returns true iff some
contiguous range of the text full-matches the pattern under that comparer; in
particular an empty pattern is always contained, and the spec's four concrete
examples hold. -/
theorem contains_spec :
    (∀ (α : Type) (cmp : α → α → Bool) (t p : List α),
      contains t p cmp = true ↔
        ∃ i j, i ≤ j ∧ j ≤ t.length ∧
          implementation.full_match cmp ((t.drop i).take (j - i)) p = true) ∧
    contains "Hello World".toList "ello".toList utility.equals_comparer = true ∧
    contains "Hello World".toList "ella".toList utility.equals_comparer = false ∧
    contains "Hello".toList "".toList utility.equals_comparer = true ∧
    contains "".toList "".toList utility.equals_comparer = true := by
refine ⟨?_, by decide, by decide, by decide, by decide⟩
intro α cmp t p
rw [contains_iff_exists_match]
exact exists_prefix_iff_exists_slice cmp t p

/-- C2: empty-pattern calls of the replace_all family and empty-separator
construction of a split_token_iterator fail with the invalid-argument error,
and the failure is atomic: the by-reference text argument of
`replace_all_in_place` is left exactly as it was. -/
theorem empty_pattern_invalid_argument :
    ∀ (α : Type) (cmp : α → α → Bool) (t rep : List α) (mode : split_mode),
      replace_all_copy t [] rep cmp =
          Except.error
            "The replace_all_copy input parameter text_to_be_replaced must not be empty." ∧
        replace_all_in_place t [] rep cmp =
          (Except.error
            "The replace_all_in_place input parameter text_to_be_replaced must not be empty.",
            t) ∧
        split_token_iterator.mk_iterator cmp t [] mode =
          Except.error
            "The separator_token input parameter for the split_token_iterator must not be empty." :=
fun _ _ _ _ _ => ⟨rfl, rfl, rfl⟩

/-- C3: for every non-empty pattern, `replace_all_copy` scans left to right:
a text without any match is kept verbatim, and at the leftmost match the
replacement is emitted verbatim and scanning continues strictly after the
matched region, so replacements are non-overlapping and inserted replacement
text is never re-scanned; the spec's concrete example holds. -/
theorem replace_all_copy_scan :
    (∀ (α : Type) (cmp : α → α → Bool) (pat rep : List α), pat ≠ [] →
      ((∀ t : List α, (∀ k, implementation.prefix_matches cmp (t.drop k) pat = false) →
          implementation.replace_all_copy_forward cmp pat rep t = t) ∧
        (∀ (t : List α) (k : Nat),
          implementation.prefix_matches cmp (t.drop k) pat = true →
          (∀ j, j < k → implementation.prefix_matches cmp (t.drop j) pat = false) →
          implementation.replace_all_copy_forward cmp pat rep t =
            t.take k ++ rep ++
              implementation.replace_all_copy_forward cmp pat rep
                (t.drop (k + pat.length))))) ∧
    replace_all_copy "aaaa aaaa".toList "aa".toList "123".toList utility.equals_comparer =
      Except.ok "123123 123123".toList := by
refine ⟨?_, ?_⟩
case refine_2 =>
  show replace_all_copy _ _ _ _ = _
  unfold replace_all_copy
  rw [if_neg (by decide)]
  rw [← implementation.racf_eval utility.equals_comparer "aa".toList "123".toList
    "aaaa aaaa".toList.length "aaaa aaaa".toList (Nat.le_refl _)]
  decide
intro α cmp pat rep hp
exact ⟨implementation.racf_id_of_no_match cmp pat rep,
  fun t k h1 h2 => implementation.racf_leftmost cmp pat rep hp k t h1 h2⟩

/-- Witness for `replace_all_copy_scan` at the spec's example input. -/
theorem replace_all_copy_scan_witness :
    implementation.replace_all_copy_forward utility.equals_comparer "aa".toList
        "123".toList "aaaa aaaa".toList =
      "aaaa aaaa".toList.take 0 ++ "123".toList ++
        implementation.replace_all_copy_forward utility.equals_comparer "aa".toList
          "123".toList ("aaaa aaaa".toList.drop (0 + "aa".toList.length)) :=
(replace_all_copy_scan.1 Char utility.equals_comparer "aa".toList "123".toList
    (by decide)).2 "aaaa aaaa".toList 0 (by decide)
  (fun j hj => absurd hj (Nat.not_lt_zero j))

/-- C4: for every non-empty pattern, the in-place replace leaves the text
holding exactly the string the copy-based replace returns, and when the
pattern does not occur the in-place call leaves the text unchanged. -/
theorem replace_all_in_place_equiv :
    ∀ (α : Type) (cmp : α → α → Bool) (t pat rep : List α), pat ≠ [] →
      replace_all_copy t pat rep cmp =
          Except.ok (replace_all_in_place t pat rep cmp).2 ∧
        (contains t pat cmp = false → (replace_all_in_place t pat rep cmp).2 = t) := by
intro α cmp t pat rep hp
have hpe : pat.isEmpty = false := by
  cases pat with
  | nil => exact absurd rfl hp
  | cons b ps => rfl
constructor
· unfold replace_all_copy replace_all_in_place
  rw [if_neg (by simp [hpe]), if_neg (by simp [hpe])]
  rw [implementation.replace_all_in_place_forward_eq cmp t pat rep hp]
· intro hc
  unfold replace_all_in_place
  rw [if_neg (by simp [hpe])]
  show implementation.replace_all_in_place_forward cmp t pat rep = t
  have hall : ∀ k, implementation.prefix_matches cmp (t.drop k) pat = false := by
    intro k
    cases hx : implementation.prefix_matches cmp (t.drop k) pat
    · rfl
    · exact absurd ((contains_iff_exists_match cmp t pat).mpr ⟨k, hx⟩) (by simp [hc])
  rw [implementation.replace_all_in_place_forward_eq cmp t pat rep hp]
  exact implementation.racf_id_of_no_match cmp pat rep t hall

/-- Witness for `replace_all_in_place_equiv` at concrete inputs. -/
theorem replace_all_in_place_equiv_witness :
    (replace_all_copy "Hello World".toList "o".toList "0".toList utility.equals_comparer =
        Except.ok
          (replace_all_in_place "Hello World".toList "o".toList "0".toList
            utility.equals_comparer).2) ∧
      (replace_all_in_place "abc".toList "x".toList "y".toList
          utility.equals_comparer).2 = "abc".toList :=
⟨(replace_all_in_place_equiv Char utility.equals_comparer "Hello World".toList "o".toList
    "0".toList (by decide)).1,
  (replace_all_in_place_equiv Char utility.equals_comparer "abc".toList "x".toList
      "y".toList (by decide)).2 (by decide)⟩

/-- C5: token-mode split of "Hello World" on "l" yields the empty section at
the adjacent separators in mode `all` and silently skips it in mode
`skip_empty`. -/
theorem split_token_empty_sections :
    split_token "Hello World".toList "l".toList split_mode.all utility.equals_comparer =
        Except.ok ["He".toList, [], "o Wor".toList, "d".toList] ∧
      split_token "Hello World".toList "l".toList split_mode.skip_empty
          utility.equals_comparer =
        Except.ok ["He".toList, "o Wor".toList, "d".toList] := by
constructor
· decide
· decide

/-- C6: splitting any text on any non-empty separator in mode `all` and then
joining the sections with that separator reproduces the text exactly, and
splitting the empty text yields exactly one empty section. -/
theorem split_token_join_round_trip :
    (∀ (t sep : List Char), sep ≠ [] →
      ∃ secs, split_token t sep split_mode.all utility.equals_comparer = Except.ok secs ∧
        join [] secs sep true = t) ∧
    ∀ sep : List Char, sep ≠ [] →
      split_token ([] : List Char) sep split_mode.all utility.equals_comparer =
        Except.ok [[]] :=
⟨split_token_all_round,
  fun sep hsep => split_token_nil_all utility.equals_comparer sep hsep⟩

/-- Witness for `split_token_join_round_trip` at the spec's example. -/
theorem split_token_join_round_trip_witness :
    (∃ secs, split_token "Hello World".toList " ".toList split_mode.all
          utility.equals_comparer = Except.ok secs ∧
        join [] secs " ".toList true = "Hello World".toList) ∧
      split_token ([] : List Char) "x".toList split_mode.all utility.equals_comparer =
        Except.ok [[]] :=
⟨split_token_join_round_trip.1 "Hello World".toList " ".toList (by decide),
  split_token_join_round_trip.2 "x".toList (by decide)⟩

/-- C7: trimming both ends in one call equals trimming the start first and
then the end with the default whitespace predicate, and an entirely
whitespace text yields the empty string on both sides. -/
theorem trim_compose :
    (∀ t : List Char, trim_copy t = trim_end_copy (trim_start_copy t)) ∧
    ∀ t : List Char, (∀ c ∈ t, utility.is_space c = true) →
      trim_copy t = [] ∧ trim_end_copy (trim_start_copy t) = [] := by
constructor
· intro t
  exact implementation.trim_copy_compose utility.is_space t
· intro t hall
  have ha : implementation.trim_iterator utility.is_space t = t.length :=
    (implementation.trim_iterator_eq_length_iff utility.is_space t).mpr hall
  have h1 := (implementation.trim_copy_all utility.is_space t ha).1
  have h2 := (implementation.trim_copy_all utility.is_space t ha).2
  refine ⟨h1, ?_⟩
  show implementation.trim_copy (trim_start_copy t) utility.is_space false true = []
  rw [show trim_start_copy t = implementation.trim_copy t utility.is_space true false
    from rfl, h2]
  simp [implementation.trim_copy]

/-- Witness for `trim_compose` on an all-whitespace input. -/
theorem trim_compose_witness :
    trim_copy "  ".toList = [] ∧ trim_end_copy (trim_start_copy "  ".toList) = [] :=
trim_compose.2 "  ".toList (by decide)

/-- C8: the forward substring search returns the half-open range of the
leftmost match when the pattern occurs, and when it does not occur (no
candidate start position up to the text end matches) it returns an empty
range whose begin position is the text end. -/
theorem find_forward_spec :
    ∀ (α : Type) (cmp : α → α → Bool) (t p : List α),
      ((∃ k, implementation.full_match cmp ((t.drop k).take p.length) p = true) →
        ∃ k, implementation.full_match cmp ((t.drop k).take p.length) p = true ∧
          (∀ j, j < k →
            implementation.full_match cmp ((t.drop j).take p.length) p = false) ∧
          implementation.find_forward_optimized cmp t p = (k, k + p.length)) ∧
      ((∀ k, k ≤ t.length →
          implementation.full_match cmp ((t.drop k).take p.length) p = false) →
        implementation.find_forward_optimized cmp t p = (t.length, t.length)) := by
intro α cmp t p
have hfm : ∀ k, implementation.full_match cmp ((t.drop k).take p.length) p =
    implementation.prefix_matches cmp (t.drop k) p := fun k =>
  (implementation.prefix_matches_eq_full_match_take cmp p (t.drop k)).symm
constructor
· rintro ⟨k, hk⟩
  rw [hfm k] at hk
  have hex : ∃ j, implementation.prefix_matches cmp (t.drop j) p = true := ⟨k, hk⟩
  have h1 := Nat.find_spec hex
  have h2 : ∀ j, j < Nat.find hex →
      implementation.prefix_matches cmp (t.drop j) p = false := by
    intro j hj
    cases hx : implementation.prefix_matches cmp (t.drop j) p
    · rfl
    · exact absurd hx (Nat.find_min hex hj)
  refine ⟨Nat.find hex, ?_, ?_, ?_⟩
  · rw [hfm]; exact h1
  · intro j hj; rw [hfm]; exact h2 j hj
  · exact implementation.find_forward_optimized_found cmp t p (Nat.find hex) h1 h2
· intro hall
  apply implementation.find_forward_optimized_not_found
  intro k
  by_cases hk : k ≤ t.length
  · rw [← hfm]; exact hall k hk
  · have hdrop : t.drop k = [] := List.drop_eq_nil_of_le (by omega)
    have hn := hall t.length (Nat.le_refl _)
    rw [hfm] at hn
    have hdn : t.drop t.length = [] := List.drop_eq_nil_of_le (Nat.le_refl _)
    rw [hdn] at hn
    rw [hdrop]
    exact hn

/-- Witness for `find_forward_spec`: a found and a not-found concrete case. -/
theorem find_forward_spec_witness :
    (∃ k, implementation.full_match utility.equals_comparer
          (("Hello".toList.drop k).take "ll".toList.length) "ll".toList = true ∧
        (∀ j, j < k → implementation.full_match utility.equals_comparer
          (("Hello".toList.drop j).take "ll".toList.length) "ll".toList = false) ∧
        implementation.find_forward_optimized utility.equals_comparer "Hello".toList
            "ll".toList = (k, k + "ll".toList.length)) ∧
      implementation.find_forward_optimized utility.equals_comparer "Hello".toList
          "xy".toList = ("Hello".toList.length, "Hello".toList.length) :=
⟨(find_forward_spec Char utility.equals_comparer "Hello".toList "ll".toList).1
    ⟨2, by decide⟩,
  (find_forward_spec Char utility.equals_comparer "Hello".toList "xy".toList).2
    (by decide)⟩

/-- C9: join over an empty container inserts no separator and appends nothing:
with clear_target true the target ends up empty, with clear_target false it is
left exactly as it was. -/
theorem join_empty_container :
    ∀ (α : Type) (target sep : List α),
      join target [] sep true = [] ∧ join target [] sep false = target :=
fun _ _ _ => ⟨rfl, rfl⟩

/-- C10: replacing a non-empty pattern by itself under the default comparer is
the identity. -/
theorem replace_all_copy_self :
    ∀ (t pat : List Char), pat ≠ [] →
      replace_all_copy t pat pat utility.equals_comparer = Except.ok t := by
intro t pat hp
have hpe : pat.isEmpty = false := by
  cases pat with
  | nil => exact absurd rfl hp
  | cons b ps => rfl
unfold replace_all_copy
rw [if_neg (by simp [hpe])]
rw [implementation.racf_self pat hp t]

/-- Witness for `replace_all_copy_self`. -/
theorem replace_all_copy_self_witness :
    replace_all_copy "Hello".toList "l".toList "l".toList utility.equals_comparer =
      Except.ok "Hello".toList :=
replace_all_copy_self "Hello".toList "l".toList (by decide)

end cppstringx
